import Mathlib

/-!
Shallow embedding of the elliptic-curve VRF implementation in
`insights_for_trusted_setup/vrf_ECC_form_N_subjects.py`.

Conventions of the embedding:
* Python arbitrary-precision integers are `Int` (or `Nat` where the source
  value is provably non-negative); Python `x % m` for a positive modulus `m`
  agrees with `Int.emod` / `Nat.mod`, which is what `%` denotes below.
* A Python call that can raise an exception or fail to terminate returns a
  `Res α`: `.ok a` is a normal return, `.exn` is a raised exception, and
  `.div` is divergence (the call never returns).
* Non-structural recursion in the source (`extended_gcd`, the modular
  exponentiation inside `pow`, the `while k:` loop of `scalar_mult`) is
  embedded with an explicit fuel argument; the fuel chosen in each wrapper is
  proved (or, for `scalar_mult` on negative scalars, shown by the
  `scalarMultLoop_neg` lemma) to make the embedding agree with the source.
* `hashlib.sha256` is embedded as a full executable SHA-256 (FIPS 180-4)
  over byte lists.
-/

/-- Outcome of running a piece of Python code: a value, a raised
exception, or divergence (the code never returns). -/
inductive Res (α : Type) where
  | ok (a : α)
  | exn
  | div
deriving DecidableEq, Repr

/-- Sequencing of Python evaluation: exceptions and divergence propagate. -/
def Res.bind {α β : Type} : Res α → (α → Res β) → Res β
  | .ok a, f => f a
  | .exn, _ => .exn
  | .div, _ => .div

/-- A point of the `Point` class: the point at infinity (both coordinates
`None`) or an affine pair of integers.  The Python `__eq__` coincides with
structural equality on this type. -/
inductive Point where
  | infinity
  | affine (x y : Int)
deriving DecidableEq, Repr

/-- Field prime `p` of the curve (secp256k1). -/
def curve_p : Nat := 115792089237316195423570985008687907853269984665640564039457584007908834671663

/-- Group order `n` of the curve (secp256k1). -/
def curve_n : Nat := 115792089237316195423570985008687907852837564279074904382605163141518161494337

/-- Curve coefficient `a = 0`. -/
def curve_a : Nat := 0

/-- Curve coefficient `b = 7`. -/
def curve_b : Nat := 7

/-- x-coordinate of the generator point `G`. -/
def curve_Gx : Nat := 55066263022277343669578718895168534326250603453777594175500187360389116729240

/-- y-coordinate of the generator point `G`. -/
def curve_Gy : Nat := 32670510020758816978083085130507043184471273380659243275938904335757337482424

/-- The generator point `G`. -/
def curve_G : Point := .affine curve_Gx curve_Gy

/-- Fueled version of `EllipticCurve.extended_gcd`.  The source recursion
`extended_gcd(b % a, a)` strictly decreases its first argument, so fuel equal
to the first argument always suffices (`extGcdAux_eq_spec`). -/
def extGcdAux : Nat → Nat → Nat → Nat × Int × Int
  | 0, a, b => if a = 0 then (b, 0, 1) else (0, 0, 0)
  | fuel + 1, a, b =>
    if a = 0 then (b, 0, 1)
    else
      let r := extGcdAux fuel (b % a) a
      (r.1, r.2.2 - ((b : Int) / (a : Int)) * r.2.1, r.2.1)

/-- `EllipticCurve.extended_gcd` on its reachable domain (both arguments of
every call made by `mod_inverse`, including recursive ones, are
non-negative). -/
def extended_gcd (a b : Nat) : Nat × Int × Int := extGcdAux a a b

/-- `EllipticCurve.mod_inverse`: normalise a negative operand into `[0, m)`,
run the extended Euclidean algorithm, and raise (`.exn`) when the gcd is not
one. -/
def mod_inverse (a : Int) (m : Nat) : Res Int :=
  let a' : Int := if a < 0 then (a % (m : Int) + (m : Int)) % (m : Int) else a
  let r := extended_gcd a'.toNat m
  if r.1 ≠ 1 then .exn else .ok (r.2.1 % (m : Int))

/-- `EllipticCurve.point_add`. -/
def point_add (P Q : Point) : Res Point :=
  match P, Q with
  | .infinity, _ => .ok Q
  | _, .infinity => .ok P
  | .affine px py, .affine qx qy =>
    if px = qx then
      if py = qy then
        (mod_inverse (2 * py) curve_p).bind fun inv =>
          let s := (3 * px * px + (curve_a : Int)) * inv % (curve_p : Int)
          let x := (s * s - px - qx) % (curve_p : Int)
          let y := (s * (px - x) - py) % (curve_p : Int)
          .ok (.affine x y)
      else
        .ok .infinity
    else
      (mod_inverse (qx - px) curve_p).bind fun inv =>
        let s := (qy - py) * inv % (curve_p : Int)
        let x := (s * s - px - qx) % (curve_p : Int)
        let y := (s * (px - x) - py) % (curve_p : Int)
        .ok (.affine x y)

/-- Fueled body of the `while k:` loop of `EllipticCurve.scalar_mult`.
Python's `k & 1` on an arbitrary integer is `k % 2` with flooring remainder,
which is `Int.emod` here, and the arithmetic shift `k >>= 1` is flooring
division by two, which is `Int.ediv` (Lean's `/`) since the divisor is
positive.  Fuel exhaustion (`.div`) models divergence of the loop;
`scalarMultLoop_ne_div_of_nonneg` shows the wrapper's fuel suffices for every
non-negative scalar, and `scalarMultLoop_not_ok_of_neg` shows the loop never
returns a value on a negative scalar. -/
def scalarMultLoop : Nat → Int → Point → Point → Res Point
  | 0, _, _, _ => .div
  | fuel + 1, k, result, addend =>
    if k = 0 then .ok result
    else
      (if k % 2 = 1 then point_add result addend else .ok result).bind fun result' =>
        (point_add addend addend).bind fun addend' =>
          scalarMultLoop fuel (k / 2) result' addend'

/-- `EllipticCurve.scalar_mult`, with the source's shortcuts for `k = 0` and
`k = 1`. -/
def scalar_mult (k : Int) (P : Point) : Res Point :=
  if k = 0 then .ok .infinity
  else if k = 1 then .ok P
  else scalarMultLoop (k.natAbs + 2) k .infinity P

/-- Fueled modular exponentiation, the embedding of Python's three-argument
`pow`.  `powModAux_eq_pow_mod` shows fuel equal to the exponent suffices. -/
def powModAux (m : Nat) : Nat → Nat → Nat → Nat
  | 0, _, _ => 1 % m
  | fuel + 1, a, e =>
    if e = 0 then 1 % m
    else
      let r := powModAux m fuel (a * a % m) (e / 2)
      if e % 2 = 1 then r * a % m else r

/-- Python `pow(a, e, m)`. -/
def powMod (a e m : Nat) : Nat := powModAux m e a e

theorem powModAux_eq_pow_mod (m : Nat) :
    ∀ fuel a e, e ≤ fuel → powModAux m fuel a e = a ^ e % m := by
  intro fuel
  induction fuel with
  | zero =>
    intro a e he
    have h0 : e = 0 := Nat.le_zero.mp he
    subst h0
    simp [powModAux]
  | succ fuel ih =>
    intro a e he
    rcases Nat.eq_zero_or_pos e with h0 | hpos
    · subst h0
      simp [powModAux]
    · have hne : e ≠ 0 := Nat.pos_iff_ne_zero.mp hpos
      have hrec : e / 2 ≤ fuel := by
        have : e / 2 < e := Nat.div_lt_self hpos (by norm_num)
        omega
      have hr := ih (a * a % m) (e / 2) hrec
      have hsq : (a * a % m) ^ (e / 2) % m = (a * a) ^ (e / 2) % m := by
        rw [← Nat.pow_mod]
      have hkey : (a * a) ^ (e / 2) = a ^ (2 * (e / 2)) := by
        rw [pow_mul, pow_two]
      rcases Nat.even_or_odd e with heven | hodd
      · have h2 : e % 2 = 0 := Nat.even_iff.mp heven
        have hdiv : 2 * (e / 2) = e := by omega
        simp only [powModAux, if_neg hne, h2]
        rw [if_neg (by norm_num), hr, hsq, hkey, hdiv]
      · have h2 : e % 2 = 1 := Nat.odd_iff.mp hodd
        have hdiv : 2 * (e / 2) + 1 = e := by omega
        simp only [powModAux, if_neg hne, h2]
        rw [hr, hsq, hkey, Nat.mod_mul_mod, ← pow_succ, hdiv]
        simp

theorem powMod_eq_pow_mod (a e m : Nat) : powMod a e m = a ^ e % m :=
  powModAux_eq_pow_mod m e a e (Nat.le_refl e)

/-- Truncation to a 32-bit word. -/
def w32 (x : Nat) : Nat := x % 4294967296

/-- Right rotation of a 32-bit word. -/
def rotr (k x : Nat) : Nat := w32 ((x >>> k) ||| (x <<< (32 - k)))

/-- SHA-256 round constants (FIPS 180-4). -/
def sha_K : List Nat :=
  [1116352408, 1899447441, 3049323471, 3921009573, 961987163, 1508970993,
   2453635748, 2870763221, 3624381080, 310598401, 607225278, 1426881987,
   1925078388, 2162078206, 2614888103, 3248222580, 3835390401, 4022224774,
   264347078, 604807628, 770255983, 1249150122, 1555081692, 1996064986,
   2554220882, 2821834349, 2952996808, 3210313671, 3336571891, 3584528711,
   113926993, 338241895, 666307205, 773529912, 1294757372, 1396182291,
   1695183700, 1986661051, 2177026350, 2456956037, 2730485921, 2820302411,
   3259730800, 3345764771, 3516065817, 3600352804, 4094571909, 275423344,
   430227734, 506948616, 659060556, 883997877, 958139571, 1322822218,
   1537002063, 1747873779, 1955562222, 2024104815, 2227730452, 2361852424,
   2428436474, 2756734187, 3204031479, 3329325298]

/-- SHA-256 initial hash value (FIPS 180-4). -/
def sha_H0 : List Nat :=
  [1779033703, 3144134277, 1013904242, 2773480762, 1359893119, 2600822924,
   528734635, 1541459225]

/-- SHA-256 message-schedule extension: append `count` further words. -/
def scheduleAux : Nat → List Nat → List Nat
  | 0, w => w
  | count + 1, w =>
    let i := w.length
    let s0 :=
      rotr 7 (w.getD (i - 15) 0) ^^^ rotr 18 (w.getD (i - 15) 0) ^^^
        (w.getD (i - 15) 0 >>> 3)
    let s1 :=
      rotr 17 (w.getD (i - 2) 0) ^^^ rotr 19 (w.getD (i - 2) 0) ^^^
        (w.getD (i - 2) 0 >>> 10)
    scheduleAux count (w ++ [w32 (w.getD (i - 16) 0 + s0 + w.getD (i - 7) 0 + s1)])

/-- One SHA-256 compression round on the eight working variables. -/
def shaRound (st : Nat × Nat × Nat × Nat × Nat × Nat × Nat × Nat)
    (kw : Nat × Nat) : Nat × Nat × Nat × Nat × Nat × Nat × Nat × Nat :=
  match st with
  | (a, b, c, d, e, f, g, h) =>
    let S1 := rotr 6 e ^^^ rotr 11 e ^^^ rotr 25 e
    let ch := (e &&& f) ^^^ ((e ^^^ 4294967295) &&& g)
    let t1 := w32 (h + S1 + ch + kw.1 + kw.2)
    let S0 := rotr 2 a ^^^ rotr 13 a ^^^ rotr 22 a
    let mj := (a &&& b) ^^^ (a &&& c) ^^^ (b &&& c)
    let t2 := w32 (S0 + mj)
    (w32 (t1 + t2), a, b, c, w32 (d + t1), e, f, g)

/-- SHA-256 compression of one 16-word block into the running hash value. -/
def shaCompress (hs block : List Nat) : List Nat :=
  let w := scheduleAux 48 block
  let st0 := (hs.getD 0 0, hs.getD 1 0, hs.getD 2 0, hs.getD 3 0,
    hs.getD 4 0, hs.getD 5 0, hs.getD 6 0, hs.getD 7 0)
  match (sha_K.zip w).foldl shaRound st0 with
  | (a, b, c, d, e, f, g, h) =>
    [w32 (hs.getD 0 0 + a), w32 (hs.getD 1 0 + b), w32 (hs.getD 2 0 + c),
     w32 (hs.getD 3 0 + d), w32 (hs.getD 4 0 + e), w32 (hs.getD 5 0 + f),
     w32 (hs.getD 6 0 + g), w32 (hs.getD 7 0 + h)]

/-- Big-endian bytes of a natural number, `len` bytes wide (the embedding of
Python's `int.to_bytes(len, 'big')` on an in-range value). -/
def natToBytesAux : Nat → Nat → List Nat → List Nat
  | 0, _, acc => acc
  | len + 1, v, acc => natToBytesAux len (v / 256) (v % 256 :: acc)

/-- Big-endian byte encoding of fixed width. -/
def natToBytes (len v : Nat) : List Nat := natToBytesAux len v []

/-- Big-endian integer value of a byte string (Python's
`int.from_bytes(_, 'big')`). -/
def bytesToNat (l : List Nat) : Nat := l.foldl (fun acc x => acc * 256 + x) 0

/-- SHA-256 padding: append `0x80`, zeros to 56 mod 64, and the 8-byte
big-endian bit length. -/
def padBytes (msg : List Nat) : List Nat :=
  let L := msg.length
  msg ++ 128 :: List.replicate ((120 - (L + 1) % 64) % 64) 0 ++
    natToBytes 8 (L * 8)

/-- Group a byte list into `count` big-endian 32-bit words. -/
def bytesToWordsAux : Nat → List Nat → List Nat
  | 0, _ => []
  | count + 1, l =>
    (l.getD 0 0 * 16777216 + l.getD 1 0 * 65536 + l.getD 2 0 * 256 +
      l.getD 3 0) :: bytesToWordsAux count (l.drop 4)

/-- Group a word list into `count` blocks of 16 words. -/
def wordsToBlocks : Nat → List Nat → List (List Nat)
  | 0, _ => []
  | count + 1, l => l.take 16 :: wordsToBlocks count (l.drop 16)

/-- Executable SHA-256 over byte lists, the embedding of `hashlib.sha256`. -/
def sha256 (msg : List Nat) : List Nat :=
  let padded := padBytes msg
  let words := bytesToWordsAux (padded.length / 4) padded
  let blocks := wordsToBlocks (padded.length / 64) words
  (blocks.foldl shaCompress sha_H0).foldr (fun h acc => natToBytes 4 h ++ acc) []

/-- Fueled body of the try-and-increment loop of
`EllipticCurve.hash_to_curve`: at most `fuel` candidate `x` values are
tested; when the budget is exhausted the source falls through the `for` loop
and returns the generator point. -/
def hashToCurveLoop : Nat → Nat → Point
  | 0, _ => curve_G
  | fuel + 1, x =>
    let y_squared := (powMod x 3 curve_p + curve_b) % curve_p
    if powMod y_squared ((curve_p - 1) / 2) curve_p = 1 then
      .affine (x : Int) ((powMod y_squared ((curve_p + 1) / 4) curve_p : Nat) : Int)
    else
      hashToCurveLoop fuel ((x + 1) % curve_p)

/-- `EllipticCurve.hash_to_curve` with the source's attempt bound of 1000. -/
def hash_to_curve (message : List Nat) : Point :=
  hashToCurveLoop 1000 (bytesToNat (sha256 message) % curve_p)

/-- A value passed to `verify` as `proof`.  A `triple` is a well-typed
`(s, t, VRF)` tuple of two integers and a `Point`; `notTriple` stands for any
other Python value, whose unpacking `s, t, VRF = proof` raises inside the
`try` block of `verify`. -/
inductive PProof where
  | triple (s t : Int) (V : Point)
  | notTriple
deriving DecidableEq, Repr

/-- Python's `v.to_bytes(32, 'big')`: raises (`OverflowError`) outside
`[0, 2^256)`. -/
def to_bytes32 (v : Int) : Res (List Nat) :=
  if 0 ≤ v ∧ v < 2 ^ 256 then .ok (natToBytes 32 v.toNat) else .exn

/-- The `P.x.to_bytes(32,'big') + P.y.to_bytes(32,'big')` encoding of a
point.  On the point at infinity the coordinates are `None` and the attribute
access raises (`AttributeError`). -/
def pointBytes : Point → Res (List Nat)
  | .infinity => .exn
  | .affine x y =>
    (to_bytes32 x).bind fun bx =>
      (to_bytes32 y).bind fun bz =>
        .ok (bx ++ bz)

/-- The `challenge_data` byte string of `ECVRF.evaluate` / `ECVRF.verify`:
the coordinates of `G`, `H`, the public key, the VRF point and the two
commitment points, in source order. -/
def challengeData (H pk V cG cH : Point) : Res (List Nat) :=
  (pointBytes curve_G).bind fun b1 =>
    (pointBytes H).bind fun b2 =>
      (pointBytes pk).bind fun b3 =>
        (pointBytes V).bind fun b4 =>
          (pointBytes cG).bind fun b5 =>
            (pointBytes cH).bind fun b6 =>
              .ok (b1 ++ b2 ++ b3 ++ b4 ++ b5 ++ b6)

/-- The VRF output `sha256(VRF.x.to_bytes(32,'big') + VRF.y.to_bytes(32,'big'))`. -/
def vrfOutputBytes (V : Point) : Res (List Nat) :=
  (pointBytes V).bind fun bv => .ok (sha256 bv)

/-- `ECVRF.__init__`: `draw` is the value produced by
`secrets.randbelow(self.curve.n)`, i.e. an arbitrary natural number below
`curve_n`; the result is the `(private_key, public_key)` pair of the new
instance (computing the public key can itself raise, hence `Res`). -/
def mkECVRF (draw : Nat) : Nat × Res Point :=
  (draw, scalar_mult (draw : Int) curve_G)

/-- `ECVRF.evaluate` with the instance key pair `(sk, pk)` and the nonce `r`
(the value produced by `secrets.randbelow(self.curve.n)`) made explicit.
Returns the `(vrf_output, proof)` pair. -/
def evaluate (sk : Nat) (pk : Point) (message : List Nat) (r : Nat) :
    Res (List Nat × PProof) :=
  let H := hash_to_curve message
  (scalar_mult (sk : Int) H).bind fun V =>
    (scalar_mult (r : Int) curve_G).bind fun rG =>
      (scalar_mult (r : Int) H).bind fun rH =>
        (challengeData H pk V rG rH).bind fun cd =>
          let s : Nat := bytesToNat (sha256 cd) % curve_n
          let t : Int := ((r : Int) - (s : Int) * (sk : Int)) % (curve_n : Int)
          (vrfOutputBytes V).bind fun vrf_output =>
            .ok (vrf_output, .triple (s : Int) t V)

/-- Body of the `try` block of `ECVRF.verify` for an unpacked proof triple. -/
def verifyBody (pk : Point) (message vrf_output : List Nat) (s t : Int)
    (V : Point) : Res Bool :=
  let H := hash_to_curve message
  (scalar_mult t curve_G).bind fun tG =>
    (scalar_mult s pk).bind fun sP =>
      (point_add tG sP).bind fun tG_plus_sP =>
        (scalar_mult t H).bind fun tH =>
          (scalar_mult s V).bind fun sV =>
            (point_add tH sV).bind fun tH_plus_sV =>
              (challengeData H pk V tG_plus_sP tH_plus_sV).bind fun cd =>
                let expected_s : Nat := bytesToNat (sha256 cd) % curve_n
                if s ≠ (expected_s : Int) then .ok false
                else
                  (vrfOutputBytes V).bind fun expected_output =>
                    .ok (vrf_output == expected_output)

/-- `ECVRF.verify`: the catch-all `except` turns any raised exception into
`False`, but cannot intercept divergence. -/
def verify (pk : Point) (message vrf_output : List Nat) : PProof → Res Bool
  | .notTriple => .ok false
  | .triple s t V =>
    match verifyBody pk message vrf_output s t V with
    | .ok bres => .ok bres
    | .exn => .ok false
    | .div => .div

/-- The collective-randomness aggregation of
`analyze_collective_randomness`: concatenate the VRF outputs in order and
hash the concatenation. -/
def analyze_collective_randomness (outputs : List (List Nat)) : List Nat :=
  sha256 (outputs.foldl (fun acc o => acc ++ o) [])

set_option maxRecDepth 100000

theorem Res.bind_ne_div {α β : Type} {r : Res α} {f : α → Res β}
    (h1 : r ≠ .div) (h2 : ∀ x, f x ≠ .div) : r.bind f ≠ .div := by
  cases r with
  | ok a => exact h2 a
  | exn => simp [Res.bind]
  | div => exact absurd rfl h1

theorem mod_inverse_ne_div (a : Int) (m : Nat) : mod_inverse a m ≠ .div := by
  simp only [mod_inverse]
  split <;> split <;> simp

theorem point_add_ne_div (P Q : Point) : point_add P Q ≠ .div := by
  cases P with
  | infinity => simp [point_add]
  | affine px py =>
    cases Q with
    | infinity => simp [point_add]
    | affine qx qy =>
      simp only [point_add]
      split_ifs with h1 h2
      · exact Res.bind_ne_div (mod_inverse_ne_div _ _) (fun x => by simp)
      · simp
      · exact Res.bind_ne_div (mod_inverse_ne_div _ _) (fun x => by simp)

/-- With fuel exceeding a non-negative scalar, the `scalar_mult` loop never
runs out of fuel: the source loop terminates on every non-negative `k`. -/
theorem scalarMultLoop_ne_div_of_nonneg :
    ∀ (fuel : Nat) (k : Int) (result addend : Point),
      0 ≤ k → k < (fuel : Int) → scalarMultLoop fuel k result addend ≠ .div := by
  intro fuel
  induction fuel with
  | zero =>
    intro k result addend h0 hlt
    exfalso
    omega
  | succ fuel ih =>
    intro k result addend h0 hlt
    simp only [scalarMultLoop]
    split_ifs with hk hodd
    · simp
    · apply Res.bind_ne_div (point_add_ne_div _ _)
      intro result'
      apply Res.bind_ne_div (point_add_ne_div _ _)
      intro addend'
      apply ih <;> omega
    · apply Res.bind_ne_div (by simp)
      intro result'
      apply Res.bind_ne_div (point_add_ne_div _ _)
      intro addend'
      apply ih <;> omega

/-- On a negative scalar the `scalar_mult` loop never returns a value, for
any amount of fuel: in the source, `k >>= 1` keeps a negative `k` negative
forever, so the `while k:` loop can only spin or raise. -/
theorem scalarMultLoop_not_ok_of_neg :
    ∀ (fuel : Nat) (k : Int) (result addend : Point) (x : Point),
      k < 0 → scalarMultLoop fuel k result addend ≠ .ok x := by
  intro fuel
  induction fuel with
  | zero =>
    intro k result addend x hk
    simp [scalarMultLoop]
  | succ fuel ih =>
    intro k result addend x hk
    simp only [scalarMultLoop]
    rw [if_neg (by omega)]
    cases h1 : (if k % 2 = 1 then point_add result addend else .ok result) with
    | ok result' =>
      simp only [Res.bind]
      cases h2 : point_add addend addend with
      | ok addend' =>
        simp only [Res.bind]
        exact ih _ _ _ _ (by omega)
      | exn => simp [Res.bind]
      | div => simp [Res.bind]
    | exn => simp [Res.bind]
    | div => simp [Res.bind]

/-- Fuel equal to the first argument is always enough for `extGcdAux`, and
the algorithm returns the gcd together with Bezout coefficients. -/
theorem extGcdAux_spec :
    ∀ (fuel a b : Nat), a ≤ fuel →
      (extGcdAux fuel a b).1 = Nat.gcd a b ∧
        (extGcdAux fuel a b).2.1 * (a : Int) + (extGcdAux fuel a b).2.2 * (b : Int)
          = (Nat.gcd a b : Int) := by
  intro fuel
  induction fuel with
  | zero =>
    intro a b ha
    have h0 : a = 0 := Nat.le_zero.mp ha
    subst h0
    simp [extGcdAux]
  | succ fuel ih =>
    intro a b ha
    rcases Nat.eq_zero_or_pos a with h0 | hpos
    · subst h0
      simp [extGcdAux]
    · have hne : a ≠ 0 := Nat.pos_iff_ne_zero.mp hpos
      have hba : b % a ≤ fuel := by
        have : b % a < a := Nat.mod_lt b hpos
        omega
      obtain ⟨ih1, ih2⟩ := ih (b % a) a hba
      constructor
      · simp only [extGcdAux, if_neg hne]
        rw [ih1, Nat.gcd_rec a b]
      · simp only [extGcdAux, if_neg hne]
        have hmod : ((b % a : Nat) : Int) = (b : Int) - (b : Int) / (a : Int) * (a : Int) := by
          push_cast
          rw [Int.emod_def]
          ring
        rw [Nat.gcd_rec a b, ← ih2, hmod]
        ring

theorem emod_mul_congr (m x y z : Int) (h : x % m = y % m) :
    x * z % m = y * z % m := by
  rw [Int.mul_emod, h, ← Int.mul_emod]

/-- When the gcd with the modulus is one, `extended_gcd` returns gcd `1` and
its first Bezout coefficient reduced mod `m` is a modular inverse in
`[0, m)`. -/
theorem extended_gcd_inverse (c m : Nat) (hm : 1 < m) (hgcd : Nat.gcd c m = 1) :
    (extended_gcd c m).1 = 1 ∧
      (c : Int) * ((extended_gcd c m).2.1 % (m : Int)) % (m : Int) = 1 ∧
      0 ≤ (extended_gcd c m).2.1 % (m : Int) ∧
      (extended_gcd c m).2.1 % (m : Int) < (m : Int) := by
  obtain ⟨h1, h2⟩ := extGcdAux_spec c c m (le_refl c)
  have hm0 : (0 : Int) < (m : Int) := by exact_mod_cast Nat.zero_lt_of_lt hm
  have hfst : (extended_gcd c m).1 = 1 := by
    unfold extended_gcd
    rw [h1, hgcd]
  refine ⟨hfst, ?_, Int.emod_nonneg _ (by omega), Int.emod_lt_of_pos _ hm0⟩
  have h2' : (extended_gcd c m).2.1 * (c : Int) + (extended_gcd c m).2.2 * (m : Int)
      = 1 := by
    have := h2
    rw [hgcd] at this
    exact_mod_cast this
  have hstep : (c : Int) * ((extended_gcd c m).2.1 % (m : Int)) % (m : Int)
      = (c : Int) * (extended_gcd c m).2.1 % (m : Int) := by
    rw [Int.mul_emod, Int.emod_emod_of_dvd _ dvd_rfl, ← Int.mul_emod]
  rw [hstep, show (c : Int) * (extended_gcd c m).2.1
      = 1 + (m : Int) * (-(extended_gcd c m).2.2) by linarith [h2'],
    Int.add_mul_emod_self_left]
  exact Int.emod_eq_of_lt (by norm_num) (by exact_mod_cast hm)

/-- C10: `mod_inverse` accepts negative operands.  For every integer `a`
(possibly negative) and modulus `m > 1` with `gcd(a mod m, m) = 1`, it
returns an `x` in `[0, m)` with `(a * x) mod m = 1`; this is what makes
`point_add` correct when it passes the possibly negative differences
`Q.y - P.y` and `Q.x - P.x`. -/
theorem mod_inverse_accepts_negatives (a : Int) (m : Nat) (hm : 1 < m)
    (hg : Nat.gcd (a % (m : Int)).toNat m = 1) :
    ∃ x : Int, mod_inverse a m = .ok x ∧ 0 ≤ x ∧ x < (m : Int) ∧
      a * x % (m : Int) = 1 := by
  have hm0 : (0 : Int) < (m : Int) := by exact_mod_cast Nat.zero_lt_of_lt hm
  rcases lt_or_le a 0 with hneg | hpos
  · have hred : (a % (m : Int) + (m : Int)) % (m : Int) = a % (m : Int) := by
      rw [show a % (m : Int) + (m : Int) = a % (m : Int) + (m : Int) * 1 by ring,
        Int.add_mul_emod_self_left, Int.emod_emod_of_dvd a dvd_rfl]
    have hnn : 0 ≤ a % (m : Int) := Int.emod_nonneg a (by omega)
    obtain ⟨g1, hinv, hx0, hx1⟩ := extended_gcd_inverse (a % (m : Int)).toNat m hm hg
    rw [Int.toNat_of_nonneg hnn] at hinv
    refine ⟨(extended_gcd (a % (m : Int)).toNat m).2.1 % (m : Int), ?_, hx0, hx1, ?_⟩
    · simp only [mod_inverse, if_pos hneg, hred, g1]
      simp
    · rw [emod_mul_congr (m : Int) a (a % (m : Int)) _
        (Int.emod_emod_of_dvd a dvd_rfl).symm]
      exact hinv
  · obtain ⟨k, rfl⟩ := Int.eq_ofNat_of_zero_le hpos
    have hca : ((k : Int) % (m : Int)).toNat = k % m := by
      have : ((k : Int) % (m : Int)) = ((k % m : Nat) : Int) := by push_cast; ring
      rw [this, Int.toNat_natCast]
    have hgcd' : Nat.gcd k m = 1 := by
      rw [Nat.gcd_comm, Nat.gcd_rec m k]
      rw [hca] at hg
      exact hg
    obtain ⟨g1, hinv, hx0, hx1⟩ := extended_gcd_inverse k m hm hgcd'
    refine ⟨(extended_gcd k m).2.1 % (m : Int), ?_, hx0, hx1, hinv⟩
    simp only [mod_inverse, if_neg (not_lt.mpr hpos), Int.toNat_natCast, g1]
    simp

/-- Witness for `mod_inverse_accepts_negatives` at the negative operand
`a = -3`, `m = 7`. -/
theorem mod_inverse_accepts_negatives_witness :
    ∃ x : Int, mod_inverse (-3) 7 = .ok x ∧ 0 ≤ x ∧ x < ((7 : Nat) : Int) ∧
      (-3) * x % ((7 : Nat) : Int) = 1 :=
  mod_inverse_accepts_negatives (-3) 7 (by norm_num) (by decide)

/-- If `c` passes the Euler quadratic-residue test, the candidate square
root `c ^ ((p+1)/4) mod p` squares back to `c` modulo `p`; this only uses
exponent arithmetic and the concrete fact that `4` divides `curve_p + 1`. -/
theorem sqrt_step (c : Nat) (hc : c < curve_p)
    (hqr : powMod c ((curve_p - 1) / 2) curve_p = 1) :
    powMod c ((curve_p + 1) / 4) curve_p * powMod c ((curve_p + 1) / 4) curve_p
      % curve_p = c := by
  rw [powMod_eq_pow_mod] at hqr
  rw [powMod_eq_pow_mod, Nat.mod_mul_mod, Nat.mul_mod_mod, ← pow_add]
  have hq : (curve_p + 1) / 4 + (curve_p + 1) / 4 = (curve_p - 1) / 2 + 1 := by
    decide
  rw [hq, pow_succ, ← Nat.mod_mul_mod, hqr, one_mul, Nat.mod_eq_of_lt hc]

/-- Every point produced by the try-and-increment loop is affine and
satisfies the curve equation, including the generator returned on
exhaustion. -/
theorem hashToCurveLoop_on_curve :
    ∀ (fuel x : Nat), ∃ xa ya : Int,
      hashToCurveLoop fuel x = .affine xa ya ∧
        ya * ya % (curve_p : Int) = (xa * xa * xa + (curve_b : Int)) % (curve_p : Int) := by
  intro fuel
  induction fuel with
  | zero =>
    intro x
    exact ⟨(curve_Gx : Int), (curve_Gy : Int), rfl, by decide⟩
  | succ fuel ih =>
    intro x
    simp only [hashToCurveLoop]
    set ys := (powMod x 3 curve_p + curve_b) % curve_p with hys
    split_ifs with hqr
    · refine ⟨(x : Int), ((powMod ys ((curve_p + 1) / 4) curve_p : Nat) : Int), rfl, ?_⟩
      have hyslt : ys < curve_p := by
        rw [hys]
        exact Nat.mod_lt _ (by decide)
      have hmain := sqrt_step ys hyslt hqr
      have hnat : powMod ys ((curve_p + 1) / 4) curve_p *
          powMod ys ((curve_p + 1) / 4) curve_p % curve_p
          = (x * x * x + curve_b) % curve_p := by
        rw [hmain, hys, powMod_eq_pow_mod, Nat.mod_add_mod]
        congr 1
        ring
      exact_mod_cast hnat
    · exact ih ((x + 1) % curve_p)

/-- C8: `hash_to_curve` is deterministic (it is a pure function of the
message, so repeated calls agree), and the point it returns is affine and
satisfies the curve equation `y² ≡ x³ + b (mod p)` — on the success path by
`sqrt_step`, and on the exhaustion path because the generator itself lies on
the curve. -/
theorem hash_to_curve_deterministic_on_curve :
    ∀ message : List Nat,
      hash_to_curve message = hash_to_curve message ∧
      ∃ x y : Int, hash_to_curve message = .affine x y ∧
        y * y % (curve_p : Int) = (x * x * x + (curve_b : Int)) % (curve_p : Int) :=
  fun message => ⟨rfl, hashToCurveLoop_on_curve 1000 (bytesToNat (sha256 message) % curve_p)⟩

/-- C6: the collective-randomness aggregation is exactly SHA-256 of the
in-order concatenation of the outputs, and is therefore order-sensitive
whenever the two concatenations have distinct digests. -/
theorem aggregate_matches_sha256_of_concat :
    ∀ (xs : List (List Nat)) (a b : List Nat),
      analyze_collective_randomness xs = sha256 xs.flatten ∧
      (sha256 (a ++ b) ≠ sha256 (b ++ a) →
        analyze_collective_randomness [a, b] ≠ analyze_collective_randomness [b, a]) := by
  have hfold : ∀ (l : List (List Nat)) (acc : List Nat),
      l.foldl (fun acc o => acc ++ o) acc = acc ++ l.flatten := by
    intro l
    induction l with
    | nil => intro acc; simp
    | cons h tl ih => intro acc; simp [ih]
  intro xs a b
  constructor
  · unfold analyze_collective_randomness
    rw [hfold]
    simp
  · intro hne hagg
    apply hne
    unfold analyze_collective_randomness at hagg
    rw [hfold, hfold] at hagg
    simpa using hagg

/-- Witness for `aggregate_matches_sha256_of_concat` at two concrete 32-byte
outputs whose concatenations have distinct digests. -/
theorem aggregate_matches_sha256_of_concat_witness :
    analyze_collective_randomness [List.replicate 32 0, List.replicate 32 1] =
      sha256 (([List.replicate 32 0, List.replicate 32 1] : List (List Nat)).flatten) ∧
    analyze_collective_randomness [List.replicate 32 0, List.replicate 32 1] ≠
      analyze_collective_randomness [List.replicate 32 1, List.replicate 32 0] :=
  ⟨(aggregate_matches_sha256_of_concat [List.replicate 32 0, List.replicate 32 1]
      (List.replicate 32 0) (List.replicate 32 1)).1,
   (aggregate_matches_sha256_of_concat [List.replicate 32 0, List.replicate 32 1]
      (List.replicate 32 0) (List.replicate 32 1)).2 (by decide)⟩

/-- C1 evidence: when the try-and-increment budget is exhausted (fuel `0`,
the state after the source's 1000 failed attempts), `hash_to_curve` returns
the generator point instead of raising a `HashToCurveError` — the fallback
the specification forbids. -/
theorem hash_to_curve_exhaustion_returns_generator :
    ∀ x : Nat, hashToCurveLoop 0 x = curve_G :=
  fun _ => rfl

/-- C2 evidence: with private key 1 (so the public key is `G`) and the drawn
nonce `r = 0` — a value `secrets.randbelow(n)` can return — `evaluate`
raises instead of producing a verifying proof: the commitment `rG` is the
point at infinity, whose `None` coordinates have no `to_bytes` encoding. -/
theorem evaluate_raises_on_zero_nonce :
    mkECVRF 1 = (1, .ok curve_G) ∧ evaluate 1 curve_G [] 0 = .exn := by
  decide

/-- C3 evidence: doubling an affine point with `y = 0` enters the doubling
branch and calls `mod_inverse(2*y, p) = mod_inverse(0, p)`, which raises; the
code has no special case returning the point at infinity. -/
theorem point_add_y_zero_doubling_raises :
    point_add (.affine 0 0) (.affine 0 0) = .exn ∧ mod_inverse 0 curve_p = .exn := by
  decide

/-- C4 evidence: `secrets.randbelow(n)` can return `0`, and the key pair
built from that draw has private key `0` — outside the claimed range
`[1, n)` — and public key equal to the point at infinity. -/
theorem keypair_draw_zero_gives_zero_private_key :
    (mkECVRF 0).1 = 0 ∧ (mkECVRF 0).2 = .ok Point.infinity ∧ 0 < curve_n := by
  decide

/-- C5 evidence: on the proof triple `(0, -1, G)` — not a pair of scalars,
but a shape `verify` accepts — `scalar_mult(-1, G)` loops forever
(`k >>= 1` fixes every negative `k`), so `verify` neither returns a boolean
nor raises. -/
theorem verify_diverges_on_negative_proof_scalar :
    verify curve_G [] [] (.triple 0 (-1) curve_G) = .div := by
  decide

theorem to_bytes32_ne_div (v : Int) : to_bytes32 v ≠ .div := by
  unfold to_bytes32
  split <;> simp

theorem pointBytes_ne_div (P : Point) : pointBytes P ≠ .div := by
  cases P with
  | infinity => simp [pointBytes]
  | affine x y =>
    simp only [pointBytes]
    apply Res.bind_ne_div (to_bytes32_ne_div _)
    intro bx
    apply Res.bind_ne_div (to_bytes32_ne_div _)
    intro bz
    simp

theorem challengeData_ne_div (H pk V cG cH : Point) :
    challengeData H pk V cG cH ≠ .div := by
  unfold challengeData
  apply Res.bind_ne_div (pointBytes_ne_div _)
  intro b1
  apply Res.bind_ne_div (pointBytes_ne_div _)
  intro b2
  apply Res.bind_ne_div (pointBytes_ne_div _)
  intro b3
  apply Res.bind_ne_div (pointBytes_ne_div _)
  intro b4
  apply Res.bind_ne_div (pointBytes_ne_div _)
  intro b5
  apply Res.bind_ne_div (pointBytes_ne_div _)
  intro b6
  simp

theorem vrfOutputBytes_ne_div (V : Point) : vrfOutputBytes V ≠ .div := by
  unfold vrfOutputBytes
  apply Res.bind_ne_div (pointBytes_ne_div _)
  intro bv
  simp

theorem scalar_mult_ne_div_of_nonneg (k : Int) (P : Point) (hk : 0 ≤ k) :
    scalar_mult k P ≠ .div := by
  unfold scalar_mult
  split_ifs with h0 h1
  · simp
  · simp
  · apply scalarMultLoop_ne_div_of_nonneg _ _ _ _ hk
    omega

theorem scalar_mult_not_ok_of_neg (k : Int) (P : Point) (x : Point)
    (hk : k < 0) : scalar_mult k P ≠ .ok x := by
  unfold scalar_mult
  rw [if_neg (by omega), if_neg (by omega)]
  exact scalarMultLoop_not_ok_of_neg _ _ _ _ _ hk

/-- Divergence on a negative proof scalar is the only gap in `verify`'s
totality: on proof triples whose scalars are non-negative, `verify` always
returns a boolean (the catch-all `except` collapses every exception to
`False`). -/
theorem verify_total_on_nonneg_scalars (pk : Point) (message vrf_output : List Nat)
    (s t : Int) (V : Point) (hs : 0 ≤ s) (ht : 0 ≤ t) :
    ∃ bres : Bool, verify pk message vrf_output (.triple s t V) = .ok bres := by
  have hbody : verifyBody pk message vrf_output s t V ≠ .div := by
    unfold verifyBody
    apply Res.bind_ne_div (scalar_mult_ne_div_of_nonneg _ _ ht)
    intro tG
    apply Res.bind_ne_div (scalar_mult_ne_div_of_nonneg _ _ hs)
    intro sP
    apply Res.bind_ne_div (point_add_ne_div _ _)
    intro c1
    apply Res.bind_ne_div (scalar_mult_ne_div_of_nonneg _ _ ht)
    intro tH
    apply Res.bind_ne_div (scalar_mult_ne_div_of_nonneg _ _ hs)
    intro sV
    apply Res.bind_ne_div (point_add_ne_div _ _)
    intro c2
    apply Res.bind_ne_div (challengeData_ne_div _ _ _ _ _)
    intro cd
    dsimp only
    split_ifs
    · simp
    · apply Res.bind_ne_div (vrfOutputBytes_ne_div _)
      intro eo
      simp
  cases hb : verifyBody pk message vrf_output s t V with
  | ok bres =>
    exact ⟨bres, by simp only [verify]; rw [hb]⟩
  | exn =>
    exact ⟨false, by simp only [verify]; rw [hb]⟩
  | div => exact absurd hb hbody

